import Mathlib

/-!
Verification of the antigravity-context-mcp memory core (v4 source in
`server.js`, final section of the repository file).  The JavaScript source is
shallowly embedded: strings are Lean `String`s (lists of unicode scalar
values), the filesystem state touched by each operation is an explicit record,
and Node's AES-256-GCM cipher is modelled by an executable authenticated
encoding with the same observable contract (payload `nonce:tag:ciphertext`,
deterministic machine-bound key, decryption succeeds exactly on untampered
payloads produced with the same key).

Known model simplifications, stated once here:
* JavaScript `String.prototype.trim` and `\s` trim the full Unicode whitespace
  class; the model trims the ASCII whitespace characters, which is what every
  file produced by the program contains.
* JavaScript line splitting is `/\r?\n/`; the model splits on `'\n'` only
  (no claim exercises CR line endings).
* `toLowerCase` is modelled by `Char.toLower` (ASCII case folding).
* JS string `.length`/`.slice` count UTF-16 code units; the model counts
  unicode scalar values.  They agree on all non-astral text.
-/

namespace AGC

/-- JS `\s` / `trim` whitespace class, restricted to ASCII. -/
def wsChar (c : Char) : Bool :=
  c = ' ' || c = '\t' || c = '\n' || c = '\r' || c = '\x0b' || c = '\x0c'

/-- `p` is a prefix of `l` (boolean). -/
def prefixOfB : List Char → List Char → Bool
  | [], _ => true
  | _ :: _, [] => false
  | a :: as, b :: bs => a = b && prefixOfB as bs

/-- `needle` occurs as a contiguous sublist of `hay`
(JS `String.prototype.includes`). -/
def occursIn (needle : List Char) : List Char → Bool
  | [] => prefixOfB needle []
  | c :: rest => prefixOfB needle (c :: rest) || occursIn needle rest

/-- Split a list at every element satisfying `p`, removing the separators.
`splitSepBy p l` always returns at least one (possibly empty) chunk. -/
def splitSepBy (p : α → Bool) : List α → List (List α)
  | [] => [[]]
  | a :: as =>
    if p a then [] :: splitSepBy p as
    else
      match splitSepBy p as with
      | [] => [[a]]
      | h :: t => (a :: h) :: t

/-- Join chunks with a separator element (inverse-ish of `splitSepBy`). -/
def joinSep (sep : α) : List (List α) → List α
  | [] => []
  | [x] => x
  | x :: y :: t => x ++ sep :: joinSep sep (y :: t)

/-- Remove leading whitespace. -/
def dropWs (l : List Char) : List Char := l.dropWhile wsChar

/-- JS `String.prototype.trim` on a character list. -/
def trimChars (l : List Char) : List Char :=
  ((l.dropWhile wsChar).reverse.dropWhile wsChar).reverse

def strTrim (s : String) : String := ⟨trimChars s.data⟩

/-- JS `String.prototype.startsWith`. -/
def strStartsWith (s pat : String) : Bool := prefixOfB pat.data s.data

/-- JS `String.prototype.includes`. -/
def strIncludes (s sub : String) : Bool := occursIn sub.data s.data

/-- JS `String.prototype.toLowerCase` (ASCII model). -/
def strToLower (s : String) : String := ⟨s.data.map Char.toLower⟩

/-- JS `String.prototype.split("\n")` (the source splits on `/\r?\n/`). -/
def strLines (s : String) : List String :=
  (splitSepBy (fun c => c == '\n') s.data).map (fun l => (⟨l⟩ : String))

/-- Index of the first `'='` (JS `indexOf("=")`), `none` when absent. -/
def idxOfEq : List Char → Option Nat
  | [] => none
  | c :: cs => if c = '=' then some 0 else (idxOfEq cs).map (· + 1)

/-! ### Basic lemmas about the text utilities -/

theorem splitSepBy_ne_nil (p : α → Bool) (l : List α) : splitSepBy p l ≠ [] := by
  cases l with
  | nil => simp [splitSepBy]
  | cons a as =>
    simp only [splitSepBy]
    split
    · simp
    · split <;> simp

theorem splitSepBy_append_sep (p : α → Bool) (a : α) (ha : p a = true)
    (xs ys : List α) (h : ∀ x ∈ xs, p x = false) :
    splitSepBy p (xs ++ a :: ys) = xs :: splitSepBy p ys := by
  induction xs with
  | nil => simp [splitSepBy, ha]
  | cons x xs ih =>
    have hx : p x = false := h x (by simp)
    have ih' := ih (fun x hx => h x (by simp [hx]))
    simp only [List.cons_append, splitSepBy, hx, List.append_eq]
    rw [ih']
    rfl

theorem splitSepBy_no_sep (p : α → Bool) (xs : List α)
    (h : ∀ x ∈ xs, p x = false) : splitSepBy p xs = [xs] := by
  induction xs with
  | nil => rfl
  | cons x xs ih =>
    have hx : p x = false := h x (by simp)
    have ih' := ih (fun x hx => h x (by simp [hx]))
    simp [splitSepBy, hx, ih']

theorem length_dropWhile_le (p : α → Bool) (l : List α) :
    (l.dropWhile p).length ≤ l.length := by
  induction l with
  | nil => simp [List.dropWhile]
  | cons a as ih =>
    rw [List.dropWhile_cons]
    split
    · exact Nat.le_trans ih (by simp)
    · simp

theorem dropWhile_eq_self_head (p : α → Bool) (l : List α)
    (h : ∀ c ∈ l.head?, p c = false) : l.dropWhile p = l := by
  cases l with
  | nil => rfl
  | cons a as =>
    have : p a = false := h a rfl
    simp [List.dropWhile, this]

theorem head_false_of_dropWhile_eq (p : α → Bool) (l : List α)
    (h : l.dropWhile p = l) : ∀ c ∈ l.head?, p c = false := by
  cases l with
  | nil => simp
  | cons a as =>
    suffices hpa : p a = false by simp [hpa]
    by_contra hp
    have hp' : p a = true := by revert hp; cases p a <;> simp
    rw [List.dropWhile_cons, if_pos hp'] at h
    have hlen := congrArg List.length h
    have hle := length_dropWhile_le p as
    simp at hlen
    omega

theorem trimChars_eq_self_of_edges (l : List Char)
    (hh : ∀ c ∈ l.head?, wsChar c = false)
    (hl : ∀ c ∈ l.getLast?, wsChar c = false) :
    trimChars l = l := by
  unfold trimChars
  rw [dropWhile_eq_self_head _ _ hh]
  rw [dropWhile_eq_self_head _ _ (by simpa [List.head?_reverse] using hl)]
  exact List.reverse_reverse l

theorem trimChars_eq_self_of_all (l : List Char)
    (h : ∀ c ∈ l, wsChar c = false) : trimChars l = l := by
  refine trimChars_eq_self_of_edges l ?_ ?_
  · intro c hc
    exact h c (List.mem_of_mem_head? hc)
  · intro c hc
    exact h c (List.mem_of_mem_getLast? hc)

theorem prefixOfB_append_right (p l r : List Char) (h : prefixOfB p l = true) :
    prefixOfB p (l ++ r) = true := by
  induction p generalizing l with
  | nil => rfl
  | cons a as ih =>
    cases l with
    | nil => simp [prefixOfB] at h
    | cons b bs =>
      simp only [prefixOfB, Bool.and_eq_true] at h ⊢
      exact ⟨h.1, ih bs h.2⟩

theorem prefixOfB_of_append (a b l : List Char) (h : prefixOfB (a ++ b) l = true) :
    prefixOfB a l = true := by
  induction a generalizing l with
  | nil => rfl
  | cons x xs ih =>
    cases l with
    | nil => simp [prefixOfB] at h
    | cons y ys =>
      simp only [List.cons_append, prefixOfB, Bool.and_eq_true] at h ⊢
      exact ⟨h.1, ih ys h.2⟩

theorem occursIn_append_right (n l r : List Char) (h : occursIn n r = true) :
    occursIn n (l ++ r) = true := by
  induction l with
  | nil => simpa using h
  | cons x xs ih =>
    simp only [List.cons_append, occursIn, Bool.or_eq_true]
    exact Or.inr ih

theorem occursIn_needle_of_append (a b l : List Char)
    (h : occursIn (a ++ b) l = true) : occursIn a l = true := by
  induction l with
  | nil => simp only [occursIn] at h ⊢; exact prefixOfB_of_append a b [] h
  | cons x xs ih =>
    simp only [occursIn, Bool.or_eq_true] at h ⊢
    rcases h with h | h
    · exact Or.inl (prefixOfB_of_append a b _ h)
    · exact Or.inr (ih h)

theorem strIncludes_append_right (s t sub : String) (h : strIncludes t sub = true) :
    strIncludes (s ++ t) sub = true := by
  unfold strIncludes at h ⊢
  rw [String.data_append]
  exact occursIn_append_right _ _ _ h

/-! ## Model of the AES-256-GCM layer

The source (`encryptText`/`decryptText`) produces a payload
`ivHex:tagHex:cipherHex` from a per-process scrypt-derived machine-bound key
and a random 12-byte nonce, and decryption fails exactly on malformed payloads
and on authentication-tag mismatches.  The cipher itself is external Node
crypto, modelled here by an executable scheme with the same interface and the
same success/failure behaviour: the ciphertext is a hex encoding of the
plaintext, the tag a hex encoding keyed by the key, so that decryption with
the producing key succeeds and any malformed or tampered payload is rejected.
The key and nonce are explicit parameters (the source obtains them from
`deriveKey()` and `crypto.randomBytes(12)`). -/

def isHexDigitCh (ch : Char) : Bool :=
  (decide ('0' ≤ ch) && decide (ch ≤ '9')) || (decide ('a' ≤ ch) && decide (ch ≤ 'f'))

def hexDigitCh : Nat → Char
  | 0 => '0' | 1 => '1' | 2 => '2' | 3 => '3' | 4 => '4' | 5 => '5' | 6 => '6'
  | 7 => '7' | 8 => '8' | 9 => '9' | 10 => 'a' | 11 => 'b' | 12 => 'c'
  | 13 => 'd' | 14 => 'e' | 15 => 'f' | _ => '0'

def hexValCh : Char → Nat
  | '0' => 0 | '1' => 1 | '2' => 2 | '3' => 3 | '4' => 4 | '5' => 5 | '6' => 6
  | '7' => 7 | '8' => 8 | '9' => 9 | 'a' => 10 | 'b' => 11 | 'c' => 12
  | 'd' => 13 | 'e' => 14 | 'f' => 15 | _ => 0

/-- Little-endian base-16 digits of `n`, `k` digits. -/
def encNat : Nat → Nat → List Char
  | 0, _ => []
  | k + 1, n => hexDigitCh (n % 16) :: encNat k (n / 16)

/-- Fixed-width (6 hex digit) encoding of one unicode scalar value. -/
def encodeChar (c : Char) : List Char := encNat 6 c.toNat

def hexEncodeL (l : List Char) : List Char := (l.map encodeChar).flatten

def decodeChunk (a b c d e f : Char) : Char :=
  Char.ofNat (hexValCh a + 16 * (hexValCh b + 16 * (hexValCh c +
    16 * (hexValCh d + 16 * (hexValCh e + 16 * hexValCh f)))))

def hexDecodeL : List Char → Option (List Char)
  | [] => some []
  | a :: b :: c :: d :: e :: f :: rest =>
    if isHexDigitCh a && isHexDigitCh b && isHexDigitCh c && isHexDigitCh d
        && isHexDigitCh e && isHexDigitCh f then
      (hexDecodeL rest).map (fun l => decodeChunk a b c d e f :: l)
    else none
  | _ => none

theorem hexVal_hexDigit (r : Nat) (h : r < 16) : hexValCh (hexDigitCh r) = r := by
  interval_cases r <;> rfl

theorem isHex_hexDigit (r : Nat) (h : r < 16) : isHexDigitCh (hexDigitCh r) = true := by
  interval_cases r <;> rfl

theorem mem_encNat_isHex (k n : Nat) (x : Char) (hx : x ∈ encNat k n) :
    isHexDigitCh x = true := by
  induction k generalizing n with
  | zero => simp [encNat] at hx
  | succ k ih =>
    simp only [encNat, List.mem_cons] at hx
    rcases hx with rfl | hx
    · exact isHex_hexDigit _ (Nat.mod_lt _ (by norm_num))
    · exact ih _ hx

theorem mem_hexEncodeL_isHex (l : List Char) (x : Char) (hx : x ∈ hexEncodeL l) :
    isHexDigitCh x = true := by
  unfold hexEncodeL at hx
  rw [List.mem_flatten] at hx
  obtain ⟨chunk, hc, hxc⟩ := hx
  rw [List.mem_map] at hc
  obtain ⟨c, _, rfl⟩ := hc
  exact mem_encNat_isHex 6 c.toNat x hxc

theorem colon_not_mem_hexEncodeL (l : List Char) : ':' ∉ hexEncodeL l := by
  intro h
  have := mem_hexEncodeL_isHex l ':' h
  simp [isHexDigitCh] at this

theorem wsChar_false_of_isHex (ch : Char) (h : isHexDigitCh ch = true) :
    wsChar ch = false := by
  by_contra hws
  have hws' : wsChar ch = true := by revert hws; cases wsChar ch <;> simp
  simp only [wsChar, Bool.or_eq_true, decide_eq_true_eq] at hws'
  rcases hws' with ((((h1 | h1) | h1) | h1) | h1) | h1 <;>
    (subst h1; exact absurd h (by decide))

theorem hexDecode_hexEncode (l : List Char) : hexDecodeL (hexEncodeL l) = some l := by
  induction l with
  | nil => rfl
  | cons c t ih =>
    have hchunk : hexEncodeL (c :: t) = encodeChar c ++ hexEncodeL t := by
      simp [hexEncodeL]
    have henc : encodeChar c =
        [hexDigitCh (c.toNat % 16), hexDigitCh (c.toNat / 16 % 16),
         hexDigitCh (c.toNat / 16 / 16 % 16), hexDigitCh (c.toNat / 16 / 16 / 16 % 16),
         hexDigitCh (c.toNat / 16 / 16 / 16 / 16 % 16),
         hexDigitCh (c.toNat / 16 / 16 / 16 / 16 / 16 % 16)] := by
      simp [encodeChar, encNat]
    have hlt : ∀ m : Nat, m % 16 < 16 := fun m => Nat.mod_lt _ (by norm_num)
    have hbound : c.toNat < 1114112 := by
      rcases c.valid with h | ⟨_, h2⟩
      · exact Nat.lt_trans h (by norm_num)
      · exact h2
    have hd : decodeChunk (hexDigitCh (c.toNat % 16)) (hexDigitCh (c.toNat / 16 % 16))
        (hexDigitCh (c.toNat / 16 / 16 % 16)) (hexDigitCh (c.toNat / 16 / 16 / 16 % 16))
        (hexDigitCh (c.toNat / 16 / 16 / 16 / 16 % 16))
        (hexDigitCh (c.toNat / 16 / 16 / 16 / 16 / 16 % 16)) = c := by
      unfold decodeChunk
      rw [hexVal_hexDigit _ (hlt _), hexVal_hexDigit _ (hlt _), hexVal_hexDigit _ (hlt _),
        hexVal_hexDigit _ (hlt _), hexVal_hexDigit _ (hlt _), hexVal_hexDigit _ (hlt _)]
      have harith : c.toNat % 16 + 16 * (c.toNat / 16 % 16 + 16 * (c.toNat / 16 / 16 % 16 +
          16 * (c.toNat / 16 / 16 / 16 % 16 + 16 * (c.toNat / 16 / 16 / 16 / 16 % 16 +
          16 * (c.toNat / 16 / 16 / 16 / 16 / 16 % 16))))) = c.toNat := by
        omega
      rw [harith, Char.ofNat_toNat]
    rw [hchunk, henc]
    simp only [List.cons_append, List.nil_append, hexDecodeL]
    rw [isHex_hexDigit _ (hlt _), isHex_hexDigit _ (hlt _), isHex_hexDigit _ (hlt _),
      isHex_hexDigit _ (hlt _), isHex_hexDigit _ (hlt _), isHex_hexDigit _ (hlt _)]
    simp only [Bool.and_self, if_true, hd]
    rw [show ([] : List Char).append (hexEncodeL t) = hexEncodeL t from rfl, ih]
    rfl

/-- Model of `encryptText` (source lines 596–604): payload
`iv:tag:ciphertext` in hex.  `key` stands for the scrypt-derived machine
key, `nonce` for the random 12-byte IV in hex. -/
def encryptText (key nonce plaintext : String) : String :=
  ⟨nonce.data ++ ':' :: (hexEncodeL (key.data ++ plaintext.data)
    ++ ':' :: hexEncodeL plaintext.data)⟩

/-- Model of `decryptText` (source lines 606–621): split the payload on `":"`,
reject payloads with fewer than three fields (`Invalid encrypted format`),
re-join the remaining fields as the ciphertext, and fail like GCM does when
the ciphertext is not valid hex or the authentication tag does not match. -/
def decryptText (key payload : String) : Except String String :=
  match splitSepBy (fun c => c == ':') payload.data with
  | _ivHex :: tagHex :: encFirst :: encRest =>
    let encrypted := joinSep ':' (encFirst :: encRest)
    match hexDecodeL encrypted with
    | none => Except.error "Unsupported state or unable to authenticate data"
    | some ptChars =>
      if tagHex = hexEncodeL (key.data ++ ptChars) then Except.ok ⟨ptChars⟩
      else Except.error "Unsupported state or unable to authenticate data"
  | _ => Except.error "Invalid encrypted format"

theorem decrypt_encrypt (key nonce pt : String)
    (hn : ∀ c ∈ nonce.data, isHexDigitCh c = true) :
    decryptText key (encryptText key nonce pt) = Except.ok pt := by
  have hcolon : (fun c => c == ':') ':' = true := by simp
  have hnc : ∀ x ∈ nonce.data, (fun c : Char => c == ':') x = false := by
    intro x hx
    have := hn x hx
    simp only [beq_eq_false_iff_ne, ne_eq]
    rintro rfl
    simp [isHexDigitCh] at this
  have htagc : ∀ x ∈ hexEncodeL (key.data ++ pt.data),
      (fun c : Char => c == ':') x = false := by
    intro x hx
    simp only [beq_eq_false_iff_ne, ne_eq]
    rintro rfl
    exact colon_not_mem_hexEncodeL _ hx
  have hctc : ∀ x ∈ hexEncodeL pt.data, (fun c : Char => c == ':') x = false := by
    intro x hx
    simp only [beq_eq_false_iff_ne, ne_eq]
    rintro rfl
    exact colon_not_mem_hexEncodeL _ hx
  unfold decryptText encryptText
  rw [show (⟨nonce.data ++ ':' :: (hexEncodeL (key.data ++ pt.data)
      ++ ':' :: hexEncodeL pt.data)⟩ : String).data
      = nonce.data ++ ':' :: (hexEncodeL (key.data ++ pt.data)
      ++ ':' :: hexEncodeL pt.data) from rfl]
  rw [splitSepBy_append_sep (fun c : Char => c == ':') ':' hcolon _ _ hnc]
  rw [splitSepBy_append_sep (fun c : Char => c == ':') ':' hcolon _ _ htagc]
  rw [splitSepBy_no_sep (fun c : Char => c == ':') _ hctc]
  simp only [joinSep, hexDecode_hexEncode, String.data_append, if_pos rfl]
  rfl

/-! ## Credential vault (source lines 750–842)

A credential record is an insertion-ordered association list mirroring the
JS object `{ section: { key: value } }`. -/

abbrev Creds := List (String × List (String × String))

/-- `creds[sec][key] = value` on an insertion-ordered object: update in place
when the key exists, append otherwise. -/
def upsertPair (k v : String) : List (String × String) → List (String × String)
  | [] => [(k, v)]
  | (k', v') :: rest => if k' = k then (k, v) :: rest else (k', v') :: upsertPair k v rest

/-- `if (!creds[sec]) creds[sec] = {}; creds[sec][key] = value`. -/
def setCred (sec k v : String) : Creds → Creds
  | [] => [(sec, [(k, v)])]
  | (s, pairs) :: rest =>
    if s = sec then (s, upsertPair k v pairs) :: rest
    else (s, pairs) :: setCred sec k v rest

/-- `trimmed.replace(/^#+\s*/, "")`: strip leading `#`s and following
whitespace, but only when the `#`s are at the very start. -/
def stripHeadingMark (l : List Char) : List Char :=
  if l.head? = some '#' then (l.dropWhile (fun c => c == '#')).dropWhile wsChar else l

/-- One loop iteration of `parseCredentialsText` (source lines 752–771);
state is `(creds, currentSection)`. -/
def parseLine (st : Creds × String) (line : String) : Creds × String :=
  if strTrim line = "" then st
  else if strStartsWith (strTrim line) "#" then
    (st.1, (⟨stripHeadingMark (strTrim line).data⟩ : String))
  else
    match idxOfEq (strTrim line).data with
    | some i =>
      if 0 < i then
        (setCred st.2 (⟨trimChars ((strTrim line).data.take i)⟩ : String)
          (⟨trimChars ((strTrim line).data.drop (i + 1))⟩ : String) st.1, st.2)
      else st
    | none => st

def parseCredentialsText (content : String) : Creds :=
  ((strLines content).foldl parseLine ([], "general")).1

/-- `serializeCredentials` (source lines 773–784). -/
def serializeCredentials (entries : Creds) : String :=
  entries.foldl
    (fun content sec =>
      (sec.2.foldl (fun c kv => c ++ kv.1 ++ "=" ++ kv.2 ++ "\n")
        (content ++ "# " ++ sec.1 ++ "\n")) ++ "\n")
    "# Credentials — managed by Antigravity Context MCP\n# DO NOT commit this file to Git!\n\n"

/-- The credential-related filesystem state of one project directory:
contents of `.credentials.enc`, `.credentials` and `.gitignore`
(`none` = the file does not exist). -/
structure ProjState where
  encFile : Option String
  plainFile : Option String
  gitignore : Option String
deriving DecidableEq

/-- `ensureGitignore` (source lines 830–842): append the filename when a
`.gitignore` exists and does not already `include` it; never create the file. -/
def ensureGitignore (gitignore : Option String) (filename : String) : Option String :=
  match gitignore with
  | none => none
  | some content =>
    if strIncludes content filename then some content
    else some (content ++ "\n# Credentials (auto-added)\n" ++ filename ++ "\n")

/-- `writeCredentials` (source lines 820–828). -/
def writeCredentials (key nonce : String) (st : ProjState) (entries : Creds) : ProjState :=
  { st with
    encFile := some (encryptText key nonce (serializeCredentials entries)),
    gitignore := ensureGitignore (ensureGitignore st.gitignore ".credentials.enc")
      ".credentials" }

/-- `readCredentials` (source lines 786–818).  Returns the parsed record
(`none` models the JS `null` for "no credential file") together with the
project state after the opportunistic plaintext→encrypted migration; a
decryption failure is surfaced as `Except.error` (the JS `throw`).
The migration itself is modelled as succeeding (its `try` swallows I/O
errors that are outside this model). -/
def readCredentials (key nonce : String) (st : ProjState) :
    Except String (Option Creds × ProjState) :=
  match st.encFile with
  | some payload =>
    match decryptText key (strTrim payload) with
    | Except.ok pt => Except.ok (some (parseCredentialsText pt), st)
    | Except.error e =>
      Except.error ("Failed to decrypt credentials: " ++ e ++
        ". File may be corrupted or created on a different machine.")
  | none =>
    let content := match st.plainFile with | some c => c | none => ""
    if strTrim content = "" then Except.ok (none, st)
    else
      let creds := parseCredentialsText content
      Except.ok (some creds,
        { st with
          encFile := some (encryptText key nonce content),
          plainFile := none,
          gitignore := ensureGitignore st.gitignore ".credentials.enc" })

/-! ## Response truncation (source lines 567–574) -/

def MAX_RESPONSE_CHARS : Nat := 50000

/-- `Number.prototype.toLocaleString()` under the en-US default locale:
decimal digits grouped in threes by commas. -/
def groupRev : List Char → List Char
  | a :: b :: c :: d :: rest => a :: b :: c :: ',' :: groupRev (d :: rest)
  | l => l

def toLocaleString (n : Nat) : String :=
  ⟨(groupRev (Nat.toDigits 10 n).reverse).reverse⟩

def truncationMarker (totalLen : Nat) : String :=
  "\n\n⚠️ [TRUNCATED — " ++ toLocaleString totalLen ++
    " chars total, showing first " ++ toLocaleString MAX_RESPONSE_CHARS ++ "]"

/-- `truncateResponse` (source lines 568–574).  `text.slice(0, N)` is the
first `N` characters. -/
def truncateResponse (text : String) : String :=
  if text.length ≤ MAX_RESPONSE_CHARS then text
  else (⟨text.data.take MAX_RESPONSE_CHARS⟩ : String) ++ truncationMarker text.length

/-! ## get_credentials handler (source lines 1182–1202) -/

/-- The markdown body the `get_credentials` handler renders from a parsed
record (it is returned without `truncateResponse`). -/
def credsText (creds : Creds) : String :=
  creds.foldl
    (fun text sec =>
      (sec.2.foldl (fun t kv => t ++ "- **" ++ kv.1 ++ "**: " ++ kv.2 ++ "\n")
        (text ++ "## " ++ sec.1 ++ "\n")) ++ "\n")
    "# Credentials (🔐 encrypted)\n\n"

/-- The `get_credentials` tool handler: validation of the (existing) project
path is outside the model; errors thrown by `readCredentials` are caught at
the per-operation boundary and rendered as `❌ …` text, a `null` record as the
`📭` informational text. -/
def getCredentialsHandler (key nonce pp : String) (st : ProjState) :
    String × ProjState :=
  match readCredentials key nonce st with
  | Except.error e => ("❌ get_credentials failed: " ++ e, st)
  | Except.ok (none, st') => ("📭 No credentials found in " ++ pp, st')
  | Except.ok (some creds, st') => (credsText creds, st')

/-! ## Brain directory model (source lines 623–748) -/

/-- One entry of the brain directory: a directory name together with the
contents of its four artifact files (`""` = missing, exactly what
`readFileSafe` returns) and its modification time (`fs.statSync(..).mtimeMs`). -/
structure SessionDir where
  name : String
  isDir : Bool
  mtime : Int
  task : String
  walkthrough : String
  plan : String
  notes : String
deriving DecidableEq

/-- `hasArtifacts`: some of task/walkthrough/plan has non-whitespace content. -/
def hasArtifacts (d : SessionDir) : Bool :=
  [d.task, d.walkthrough, d.plan].any (fun content => !(strTrim content).isEmpty)

/-- `getBrainFoldersSorted` (source lines 626–649): `none` models a missing
`BRAIN_DIR`.  The JS `Array.prototype.sort` is stable; so is `mergeSort`. -/
def getBrainFoldersSorted (brain : Option (List SessionDir)) : List SessionDir :=
  match brain with
  | none => []
  | some entries =>
    (((entries.filter (fun d => d.isDir && d.name != "tempmediaStorage")).filter
      hasArtifacts).mergeSort (fun a b => decide (b.mtime ≤ a.mtime)))

/-- `extractTitle` (source lines 652–663), reading `task.md` and
`implementation_plan.md` of one session directory. -/
def extractTitle (task plan : String) : String :=
  if strTrim task = "" then
    match (strLines plan).find? (fun l => strStartsWith (strTrim l) "#") with
    | some firstLine => strTrim (⟨stripHeadingMark firstLine.data⟩ : String)
    | none => "Untitled session"
  else
    match (strLines task).find? (fun l => strStartsWith (strTrim l) "#") with
    | some firstHeading => strTrim (⟨stripHeadingMark firstHeading.data⟩ : String)
    | none =>
      match (strLines task).find? (fun l => !(strTrim l).isEmpty) with
      | some firstLine => (⟨(trimChars firstLine.data).take 80⟩ : String)
      | none => "Untitled session"

/-- `appendNote` (source lines 682–693) as a function on the journal file
content (`none` = file does not exist); `now` is the ISO minute timestamp. -/
def appendNote (existing : Option String) (now note : String) (tag : Option String) :
    String :=
  let tagStr := match tag with
    | some t => if t = "" then "" else " #" ++ t
    | none => ""
  let entry := "### [" ++ now ++ "]" ++ tagStr ++ "\n" ++ note ++ "\n\n---\n\n"
  match existing with
  | none => "# Session Notes\n\n" ++ entry
  | some content => content ++ entry

/-- `content.split(/^---$/m).map(e => e.trim()).filter(Boolean)`: split the
journal on delimiter-only lines, trim each fragment, drop empty ones. -/
def noteEntries (content : String) : List String :=
  ((splitSepBy (fun l => l == ("---".data))
      (splitSepBy (fun c => c == '\n') content.data)).map
    (fun chunk => strTrim (⟨joinSep '\n' chunk⟩ : String))).filter (fun e => e ≠ "")

/-- `!query || entry.toLowerCase().includes(query.toLowerCase())`
(`none`/`""` are both falsy in JS). -/
def matchesQuery (query : Option String) (entry : String) : Bool :=
  match query with
  | none => true
  | some q => q = "" || strIncludes (strToLower entry) (strToLower q)

/-- `!tag || entry.includes("#" + tag)`. -/
def matchesTag (tag : Option String) (entry : String) : Bool :=
  match tag with
  | none => true
  | some t => t = "" || strIncludes entry ("#" ++ t)

structure SearchHit where
  sessionId : String
  title : String
  mtime : Int
  entry : String
deriving DecidableEq

/-- `searchNotes` (source lines 696–716).  The `date` field of a result is
derived from `mtime` by ISO formatting; the raw `mtime` is carried instead. -/
def searchNotes (brain : Option (List SessionDir)) (query tag : Option String)
    (lastN : Nat) : List SearchHit :=
  ((getBrainFoldersSorted brain).take lastN).flatMap (fun folder =>
    if strTrim folder.notes = "" then []
    else
      (noteEntries folder.notes).filterMap (fun entry =>
        if strStartsWith entry "# Session Notes" then none
        else if matchesQuery query entry && matchesTag tag entry then
          some { sessionId := folder.name, title := extractTitle folder.task folder.plan,
                 mtime := folder.mtime, entry := entry }
        else none))

/-! ## Session-id validation (source lines 584–587, handlers 1131–1140 and
1236–1254) -/

def isHexDashCh (c : Char) : Bool :=
  (decide ('a' ≤ c) && decide (c ≤ 'f')) || (decide ('A' ≤ c) && decide (c ≤ 'F')) ||
    (decide ('0' ≤ c) && decide (c ≤ '9')) || c = '-'

/-- `validateSessionId`: reject empty/non-string ids, then test
`/^[a-f0-9-]+$/i`. -/
def validateSessionId (id : String) : Except String Unit :=
  if id = "" then Except.error "session_id is required"
  else if id.data.all isHexDashCh then Except.ok ()
  else Except.error ("Invalid session_id format: " ++ id)

/-- Model of `path.join(BRAIN_DIR, sessionId)` for a separator-free,
non-dot component. -/
def joinPath (base name : String) : String := base ++ "/" ++ name

/-- `p` names a direct child of `base`: one more non-empty path component
with no separators and no `.`/`..`. -/
def isDirectChild (base p : String) : Prop :=
  ∃ name : String, p = base ++ "/" ++ name ∧ name ≠ "" ∧ '/' ∉ name.data ∧
    '\\' ∉ name.data ∧ name ≠ "." ∧ name ≠ ".."

/-! ## Export/import (v5) — modelled from the spec

The v5 source implementing `context_export`/`context_import` is not part of
the repository snapshot (only its changelog and README entries are), so the
merge step is modelled from the spec. -/

structure NoteEntryRec where
  timestamp : String
  body : String
deriving DecidableEq

/-- Modelled from the spec: the missing v5 `context_import` merge for one
session — "an incoming entry is skipped if an entry with identical timestamp
and body already exists in that session's journal; otherwise it is appended.
Import never deletes or overwrites existing entries." -/
def importEntries (existing incoming : List NoteEntryRec) : List NoteEntryRec :=
  incoming.foldl (fun acc e => if e ∈ acc then acc else acc ++ [e]) existing

/-! ## Correctness of the credential text roundtrip -/

theorem mk_data (s : String) : (⟨s.data⟩ : String) = s := by cases s; rfl

theorem str_ext (a b : String) (h : a.data = b.data) : a = b := by
  have hmk := congrArg String.mk h
  rwa [mk_data, mk_data] at hmk

theorem data_ne_nil (s : String) (h : s ≠ "") : s.data ≠ [] := by
  intro hd
  exact h (str_ext s "" (by simpa using hd))

theorem str_ne_empty_of_data (s : String) (h : s.data ≠ []) : s ≠ "" := by
  intro he
  subst he
  exact h rfl

/-- `s.trim() === s`: no whitespace at either edge. -/
def TrimStable (s : String) : Prop :=
  s.data.dropWhile wsChar = s.data ∧ s.data.reverse.dropWhile wsChar = s.data.reverse

instance (s : String) : Decidable (TrimStable s) := by unfold TrimStable; infer_instance

theorem trimStable_trimChars (s : String) (h : TrimStable s) :
    trimChars s.data = s.data := by
  unfold trimChars
  rw [h.1, h.2, List.reverse_reverse]

theorem trimStable_strTrim (s : String) (h : TrimStable s) : strTrim s = s := by
  unfold strTrim
  rw [trimStable_trimChars s h, mk_data]

theorem trimStable_head (s : String) (h : TrimStable s) :
    ∀ c ∈ s.data.head?, wsChar c = false :=
  head_false_of_dropWhile_eq _ _ h.1

theorem trimStable_last (s : String) (h : TrimStable s) :
    ∀ c ∈ s.data.getLast?, wsChar c = false := by
  have := head_false_of_dropWhile_eq _ _ h.2
  simpa [List.head?_reverse] using this

/-- A key/value pair survives `serializeCredentials` followed by
`parseCredentialsText` unchanged exactly when it is of this shape. -/
def WfKV (kv : String × String) : Prop :=
  kv.1 ≠ "" ∧ TrimStable kv.1 ∧ TrimStable kv.2 ∧ '\n' ∉ kv.1.data ∧
    '\n' ∉ kv.2.data ∧ '=' ∉ kv.1.data ∧ kv.1.data.head? ≠ some '#'

def WfSection (sec : String × List (String × String)) : Prop :=
  sec.1 ≠ "" ∧ TrimStable sec.1 ∧ '\n' ∉ sec.1.data ∧ sec.2 ≠ [] ∧
    (sec.2.map Prod.fst).Nodup ∧ ∀ kv ∈ sec.2, WfKV kv

def WfCreds (R : Creds) : Prop :=
  (R.map Prod.fst).Nodup ∧ ∀ sec ∈ R, WfSection sec

instance (kv : String × String) : Decidable (WfKV kv) := by unfold WfKV; infer_instance

instance (sec : String × List (String × String)) : Decidable (WfSection sec) := by
  unfold WfSection; infer_instance

instance (R : Creds) : Decidable (WfCreds R) := by unfold WfCreds; infer_instance

/-- The `key=value` line serialized for one pair. -/
def pairLine (kv : String × String) : String := kv.1 ++ "=" ++ kv.2

/-- The lines `serializeCredentials` emits for one section. -/
def secLinesStr (sec : String × List (String × String)) : List String :=
  ("# " ++ sec.1) :: (sec.2.map pairLine ++ [""])

def strJoin : List String → String
  | [] => ""
  | s :: rest => s ++ strJoin rest

theorem str_append_empty (s : String) : s ++ "" = s :=
  str_ext _ _ (by simp [String.data_append])

theorem str_append_assoc (a b c : String) : a ++ b ++ c = a ++ (b ++ c) :=
  str_ext _ _ (by simp [String.data_append])

theorem foldl_append_strJoin (f : β → String) (l : List β) (A : String) :
    l.foldl (fun c x => c ++ f x) A = A ++ strJoin (l.map f) := by
  induction l generalizing A with
  | nil => simp [strJoin, str_append_empty]
  | cons x xs ih =>
    simp only [List.foldl_cons, List.map_cons, strJoin, ih, str_append_assoc]

def secBlock (sec : String × List (String × String)) : String :=
  "# " ++ sec.1 ++ "\n" ++ strJoin (sec.2.map (fun kv => pairLine kv ++ "\n")) ++ "\n"

def credsHeaderStr : String :=
  "# Credentials — managed by Antigravity Context MCP\n# DO NOT commit this file to Git!\n\n"

theorem serialize_eq_blocks (R : Creds) :
    serializeCredentials R = credsHeaderStr ++ strJoin (R.map secBlock) := by
  unfold serializeCredentials
  have hfun : (fun (content : String) (sec : String × List (String × String)) =>
      (sec.2.foldl (fun c kv => c ++ kv.1 ++ "=" ++ kv.2 ++ "\n")
        (content ++ "# " ++ sec.1 ++ "\n")) ++ "\n")
      = (fun content sec => content ++ secBlock sec) := by
    funext content sec
    have hkv : (fun (c : String) (kv : String × String) => c ++ kv.1 ++ "=" ++ kv.2 ++ "\n")
        = (fun c kv => c ++ (pairLine kv ++ "\n")) := by
      funext c kv
      exact str_ext _ _ (by simp [pairLine, String.data_append])
    rw [hkv, foldl_append_strJoin]
    exact str_ext _ _ (by simp [secBlock, String.data_append])
  rw [hfun, foldl_append_strJoin]
  rfl

/-- Concatenate lines, terminating each with `'\n'`. -/
def unlinesChars (ls : List (List Char)) : List Char :=
  (ls.map (fun l => l ++ ['\n'])).flatten

theorem unlines_cons (l : List Char) (ls : List (List Char)) :
    unlinesChars (l :: ls) = l ++ '\n' :: unlinesChars ls := by
  simp [unlinesChars]

theorem unlines_append (a b : List (List Char)) :
    unlinesChars (a ++ b) = unlinesChars a ++ unlinesChars b := by
  simp [unlinesChars]

theorem splitNl_unlines (ls : List (List Char)) (h : ∀ l ∈ ls, '\n' ∉ l) :
    splitSepBy (fun c => c == '\n') (unlinesChars ls) = ls ++ [[]] := by
  induction ls with
  | nil => rfl
  | cons l ls ih =>
    rw [unlines_cons]
    rw [splitSepBy_append_sep (fun c : Char => c == '\n') '\n' (by simp) _ _ ?_]
    · rw [ih (fun x hx => h x (by simp [hx]))]
      rfl
    · intro x hx
      have hxl : x ≠ '\n' := by
        intro hxeq
        exact h l (by simp) (hxeq ▸ hx)
      simpa using hxl

theorem strLines_eq_of_data (ls : List String) (s : String)
    (hdata : s.data = unlinesChars (ls.map String.data))
    (h : ∀ l ∈ ls, '\n' ∉ l.data) :
    strLines s = ls ++ [""] := by
  unfold strLines
  rw [hdata, splitNl_unlines _ ?_]
  · have h1 : (ls.map String.data).map (fun l => (⟨l⟩ : String)) = ls := by
      rw [List.map_map]
      refine (List.map_congr_left ?_).trans (List.map_id ls)
      intro l _
      simp [mk_data]
    rw [List.map_append, h1]
    rfl
  · intro l hl
    rw [List.mem_map] at hl
    obtain ⟨l', hl', rfl⟩ := hl
    exact h l' hl'

theorem data_strJoin_pairs (ps : List (String × String)) :
    (strJoin (ps.map (fun kv => pairLine kv ++ "\n"))).data
      = unlinesChars ((ps.map pairLine).map String.data) := by
  induction ps with
  | nil => rfl
  | cons kv ps ih =>
    simp only [List.map_cons, strJoin, String.data_append, ih, unlines_cons]
    simp

theorem data_secBlock (sec : String × List (String × String)) :
    (secBlock sec).data = unlinesChars ((secLinesStr sec).map String.data) := by
  unfold secBlock secLinesStr
  simp only [List.map_cons, List.map_append, unlines_cons, unlines_append,
    String.data_append, data_strJoin_pairs]
  simp [unlinesChars]

theorem data_strJoin_blocks (R : Creds) :
    (strJoin (R.map secBlock)).data
      = unlinesChars (((R.map secLinesStr).flatten).map String.data) := by
  induction R with
  | nil => rfl
  | cons sec R ih =>
    simp only [List.map_cons, strJoin, String.data_append, ih, List.flatten_cons,
      List.map_append, unlines_append, data_secBlock]

/-- The full line list `serializeCredentials` produces (before the final
empty chunk contributed by the trailing newline). -/
def targetLines (R : Creds) : List String :=
  "# Credentials — managed by Antigravity Context MCP" ::
    "# DO NOT commit this file to Git!" :: "" :: (R.map secLinesStr).flatten

theorem serialize_data (R : Creds) :
    (serializeCredentials R).data = unlinesChars ((targetLines R).map String.data) := by
  rw [serialize_eq_blocks, String.data_append]
  unfold targetLines
  simp only [List.map_cons, unlines_cons, data_strJoin_blocks]
  rw [show credsHeaderStr.data
      = "# Credentials — managed by Antigravity Context MCP".data
        ++ '\n' :: ("# DO NOT commit this file to Git!".data ++ ['\n', '\n']) from by decide]
  simp

theorem strLines_serialize (R : Creds) (hwf : WfCreds R) :
    strLines (serializeCredentials R) = targetLines R ++ [""] := by
  refine strLines_eq_of_data _ _ (serialize_data R) ?_
  intro l hl
  unfold targetLines at hl
  simp only [List.mem_cons, List.mem_flatten, List.mem_map] at hl
  rcases hl with rfl | rfl | rfl | ⟨chunk, ⟨sec, hsec, rfl⟩, hlc⟩
  · decide
  · decide
  · decide
  · have hwfs := hwf.2 sec hsec
    unfold secLinesStr at hlc
    simp only [List.mem_cons, List.mem_append, List.mem_map, List.mem_singleton,
      List.not_mem_nil, or_false] at hlc
    rcases hlc with rfl | ⟨kv, hkv, rfl⟩ | rfl
    · rw [String.data_append]
      intro hmem
      rcases List.mem_append.mp hmem with hmem | hmem
      · revert hmem; decide
      · exact hwfs.2.2.1 hmem
    · have hwfkv := hwfs.2.2.2.2.2 kv hkv
      unfold pairLine
      rw [String.data_append, String.data_append]
      intro hmem
      rcases List.mem_append.mp hmem with hmem | hmem
      · rcases List.mem_append.mp hmem with hmem | hmem
        · exact hwfkv.2.2.2.1 hmem
        · revert hmem; decide
      · exact hwfkv.2.2.2.2.1 hmem
    · decide

/-! ### How `parseLine` acts on the three kinds of serialized lines -/

theorem parse_blank (st : Creds × String) (line : String) (h : strTrim line = "") :
    parseLine st line = st := by
  unfold parseLine
  rw [h, if_pos rfl]

theorem parse_header (s : String) (hne : s ≠ "") (hts : TrimStable s)
    (acc : Creds) (cur : String) :
    parseLine (acc, cur) ("# " ++ s) = (acc, s) := by
  have hdata : ("# " ++ s).data = '#' :: ' ' :: s.data := by
    rw [String.data_append]
    rfl
  have hdne : s.data ≠ [] := data_ne_nil s hne
  have htrim : strTrim ("# " ++ s) = "# " ++ s := by
    unfold strTrim
    rw [hdata, trimChars_eq_self_of_edges _ ?_ ?_, ← hdata, mk_data]
    · intro c hc
      simp only [List.head?_cons, Option.mem_def, Option.some.injEq] at hc
      subst hc
      decide
    · rw [show ('#' :: ' ' :: s.data) = ['#', ' '] ++ s.data from rfl,
        List.getLast?_append_of_ne_nil _ hdne]
      exact trimStable_last s hts
  have hne2 : "# " ++ s ≠ "" :=
    str_ne_empty_of_data _ (by rw [hdata]; simp)
  have hstart : strStartsWith ("# " ++ s) "#" = true := by
    unfold strStartsWith
    rw [hdata]
    simp [prefixOfB]
  have hstrip : stripHeadingMark ('#' :: ' ' :: s.data) = s.data := by
    unfold stripHeadingMark
    rw [if_pos (show ('#' :: ' ' :: s.data).head? = some '#' from rfl)]
    rw [show List.dropWhile (fun c => c == '#') ('#' :: ' ' :: s.data)
        = ' ' :: s.data from by simp [List.dropWhile]]
    rw [show List.dropWhile wsChar (' ' :: s.data)
        = List.dropWhile wsChar s.data from by simp [List.dropWhile, wsChar]]
    exact hts.1
  unfold parseLine
  rw [htrim, if_neg hne2, hstart, if_pos rfl, hdata, hstrip, mk_data]

theorem idxOfEq_append (xs ys : List Char) (h : '=' ∉ xs) :
    idxOfEq (xs ++ '=' :: ys) = some xs.length := by
  induction xs with
  | nil => simp [idxOfEq]
  | cons x t ih =>
    have hx : ¬(x = '=') := fun he => h (by simp [he])
    have ih' := ih (fun hm => h (List.mem_cons_of_mem _ hm))
    simp [idxOfEq, hx, ih']

theorem parse_kv (k v : String) (h : WfKV (k, v)) (acc : Creds) (cur : String) :
    parseLine (acc, cur) (k ++ "=" ++ v) = (setCred cur k v acc, cur) := by
  obtain ⟨hne, htk, htv, hnlk, hnlv, heq, hhash⟩ := h
  have hdne : k.data ≠ [] := data_ne_nil k hne
  obtain ⟨a, rest, hk⟩ : ∃ a rest, k.data = a :: rest := by
    cases hkd : k.data with
    | nil => exact absurd hkd hdne
    | cons a rest => exact ⟨a, rest, rfl⟩
  have hdata : (k ++ "=" ++ v).data = k.data ++ '=' :: v.data := by
    simp [String.data_append]
  have hhead : ∀ c ∈ ((k ++ "=" ++ v).data).head?, wsChar c = false := by
    rw [hdata, hk]
    intro c hc
    simp only [List.cons_append, List.head?_cons, Option.mem_def, Option.some.injEq] at hc
    subst hc
    exact trimStable_head k htk a (by rw [hk]; rfl)
  have hlast : ∀ c ∈ ((k ++ "=" ++ v).data).getLast?, wsChar c = false := by
    rw [hdata]
    cases hvd : v.data with
    | nil =>
      rw [List.getLast?_append_of_ne_nil _ (show ['='] ≠ ([] : List Char) by simp)]
      intro c hc
      simp only [List.getLast?_singleton, Option.mem_def, Option.some.injEq] at hc
      subst hc
      decide
    | cons b bs =>
      rw [show k.data ++ '=' :: b :: bs = (k.data ++ ['=']) ++ b :: bs from by simp]
      rw [List.getLast?_append_of_ne_nil _ (show b :: bs ≠ ([] : List Char) by simp)]
      rw [← hvd]
      exact trimStable_last v htv
  have htrim : strTrim (k ++ "=" ++ v) = k ++ "=" ++ v := by
    unfold strTrim
    rw [trimChars_eq_self_of_edges _ hhead hlast, mk_data]
  have hne2 : k ++ "=" ++ v ≠ "" := by
    refine str_ne_empty_of_data _ ?_
    rw [hdata, hk]
    simp
  have hstart : strStartsWith (k ++ "=" ++ v) "#" = false := by
    unfold strStartsWith
    rw [hdata, hk]
    have ha : a ≠ '#' := by
      intro he
      exact hhash (by rw [hk, he]; rfl)
    have hfa : ('#' = a) = False := eq_false (fun he => ha he.symm)
    simp [prefixOfB, hfa]
  have hidx : idxOfEq ((k ++ "=" ++ v).data) = some k.data.length := by
    rw [hdata]
    exact idxOfEq_append k.data v.data heq
  have htake : ((k ++ "=" ++ v).data).take k.data.length = k.data := by
    rw [hdata]
    exact List.take_left _ _
  have hdrop : ((k ++ "=" ++ v).data).drop (k.data.length + 1) = v.data := by
    rw [hdata, show k.data ++ '=' :: v.data = (k.data ++ ['=']) ++ v.data from by simp,
      show k.data.length + 1 = (k.data ++ ['=']).length from by simp]
    exact List.drop_left _ _
  have hpos : 0 < k.data.length := by rw [hk]; simp
  unfold parseLine
  rw [htrim, if_neg hne2, hstart]
  simp only [Bool.false_eq_true, if_false]
  simp only [hidx]
  rw [if_pos hpos]
  rw [htake, hdrop, trimStable_trimChars k htk, trimStable_trimChars v htv,
    mk_data, mk_data]

/-! ### How `setCred` acts on fresh sections and keys -/

theorem setCred_of_not_mem (sec k v : String) (acc : Creds)
    (h : sec ∉ acc.map Prod.fst) :
    setCred sec k v acc = acc ++ [(sec, [(k, v)])] := by
  induction acc with
  | nil => rfl
  | cons p rest ih =>
    obtain ⟨s, ps⟩ := p
    simp only [List.map_cons, List.mem_cons] at h
    push_neg at h
    have hs : ¬(s = sec) := fun he => h.1 he.symm
    simp only [setCred, if_neg hs, ih h.2, List.cons_append]

theorem setCred_append_last (sec k v : String) (acc : Creds)
    (ps : List (String × String)) (h : sec ∉ acc.map Prod.fst) :
    setCred sec k v (acc ++ [(sec, ps)]) = acc ++ [(sec, upsertPair k v ps)] := by
  induction acc with
  | nil => simp [setCred]
  | cons p rest ih =>
    obtain ⟨s, ps'⟩ := p
    simp only [List.map_cons, List.mem_cons] at h
    push_neg at h
    have hs : ¬(s = sec) := fun he => h.1 he.symm
    simp only [List.cons_append, setCred, if_neg hs, List.append_eq, ih h.2]

theorem upsertPair_of_not_mem (k v : String) (ps : List (String × String))
    (h : k ∉ ps.map Prod.fst) :
    upsertPair k v ps = ps ++ [(k, v)] := by
  induction ps with
  | nil => rfl
  | cons p rest ih =>
    obtain ⟨k', v'⟩ := p
    simp only [List.map_cons, List.mem_cons] at h
    push_neg at h
    have hk : ¬(k' = k) := fun he => h.1 he.symm
    simp only [upsertPair, if_neg hk, ih h.2, List.cons_append]

/-! ### Folding `parseLine` over the serialized lines -/

theorem fold_pairs (sec : String) (t done : List (String × String)) (acc : Creds)
    (hsec : sec ∉ acc.map Prod.fst)
    (hnd : ((done ++ t).map Prod.fst).Nodup)
    (hwf : ∀ kv ∈ t, WfKV kv) :
    (t.map pairLine).foldl parseLine (acc ++ [(sec, done)], sec)
      = (acc ++ [(sec, done ++ t)], sec) := by
  induction t generalizing done with
  | nil => simp
  | cons kv t ih =>
    obtain ⟨k, v⟩ := kv
    have hwfkv : WfKV (k, v) := hwf _ (by simp)
    have hk : k ∉ done.map Prod.fst := by
      intro hkm
      rw [List.map_append] at hnd
      rcases List.nodup_append.mp hnd with ⟨-, -, hdisj⟩
      exact (hdisj hkm) (by simp)
    rw [List.map_cons, List.foldl_cons,
      show pairLine (k, v) = k ++ "=" ++ v from rfl,
      parse_kv k v hwfkv, setCred_append_last sec k v acc done hsec,
      upsertPair_of_not_mem k v done hk]
    have hnd' : (((done ++ [(k, v)]) ++ t).map Prod.fst).Nodup := by
      rw [List.append_assoc]
      simpa using hnd
    have := ih (done ++ [(k, v)]) hnd' (fun kv hm => hwf kv (by simp [hm]))
    rw [this, List.append_assoc]
    rfl

theorem fold_sections (R : Creds) (acc : Creds) (cur : String)
    (hwf : ∀ sec ∈ R, WfSection sec)
    (hdisj : ∀ sec ∈ R, sec.1 ∉ acc.map Prod.fst)
    (hnd : (R.map Prod.fst).Nodup) :
    ∃ cur', ((R.map secLinesStr).flatten).foldl parseLine (acc, cur)
      = (acc ++ R, cur') := by
  induction R generalizing acc cur with
  | nil => exact ⟨cur, by simp⟩
  | cons secp R ih =>
    obtain ⟨s, ps⟩ := secp
    have hwfs : WfSection (s, ps) := hwf (s, ps) (List.mem_cons_self _ _)
    obtain ⟨p1, t, rfl⟩ : ∃ p t, ps = p :: t := by
      cases hps : ps with
      | nil => exact absurd hps hwfs.2.2.2.1
      | cons p t => exact ⟨p, t, rfl⟩
    obtain ⟨k1, v1⟩ := p1
    have hsec_acc : s ∉ acc.map Prod.fst :=
      hdisj (s, (k1, v1) :: t) (List.mem_cons_self _ _)
    rw [List.map_cons, List.flatten_cons, List.foldl_append]
    have hstep : (secLinesStr (s, (k1, v1) :: t)).foldl parseLine (acc, cur)
        = (acc ++ [(s, (k1, v1) :: t)], s) := by
      unfold secLinesStr
      rw [List.foldl_cons, parse_header s hwfs.1 hwfs.2.1,
        List.map_cons, List.cons_append, List.foldl_cons,
        show pairLine (k1, v1) = k1 ++ "=" ++ v1 from rfl,
        parse_kv k1 v1 (hwfs.2.2.2.2.2 (k1, v1) (List.mem_cons_self _ _)),
        setCred_of_not_mem s k1 v1 acc hsec_acc,
        List.foldl_append,
        fold_pairs s t [(k1, v1)] acc hsec_acc (by simpa using hwfs.2.2.2.2.1)
          (fun kv hm => hwfs.2.2.2.2.2 kv (List.mem_cons_of_mem _ hm)),
        List.foldl_cons, parse_blank _ "" rfl]
      rfl
    rw [hstep]
    have hdisj' : ∀ sec ∈ R, sec.1 ∉ (acc ++ [(s, (k1, v1) :: t)]).map Prod.fst := by
      intro sec hm
      rw [List.map_append]
      intro hmem
      rcases List.mem_append.mp hmem with hmem | hmem
      · exact hdisj sec (List.mem_cons_of_mem _ hm) hmem
      · simp only [List.map_cons, List.map_nil, List.mem_singleton] at hmem
        rw [List.map_cons] at hnd
        rcases List.nodup_cons.mp hnd with ⟨hs_not, -⟩
        have hsec1 : sec.1 ∈ R.map Prod.fst := List.mem_map_of_mem Prod.fst hm
        rw [hmem] at hsec1
        exact hs_not hsec1
    obtain ⟨cur', hcur⟩ := ih (acc ++ [(s, (k1, v1) :: t)]) s
      (fun sec hm => hwf sec (List.mem_cons_of_mem _ hm)) hdisj'
      (by rw [List.map_cons] at hnd; exact (List.nodup_cons.mp hnd).2)
    refine ⟨cur', ?_⟩
    rw [hcur, List.append_assoc]
    rfl

/-- `parseCredentialsText` inverts `serializeCredentials` on well-formed
records. -/
theorem parse_serialize (R : Creds) (hwf : WfCreds R) :
    parseCredentialsText (serializeCredentials R) = R := by
  unfold parseCredentialsText
  rw [strLines_serialize R hwf]
  unfold targetLines
  rw [List.cons_append, List.cons_append, List.cons_append,
    List.foldl_cons, List.foldl_cons, List.foldl_cons]
  rw [show ("# Credentials — managed by Antigravity Context MCP" : String)
      = "# " ++ "Credentials — managed by Antigravity Context MCP" from by decide]
  rw [parse_header _ (by decide) (by decide)]
  rw [show ("# DO NOT commit this file to Git!" : String)
      = "# " ++ "DO NOT commit this file to Git!" from by decide]
  rw [parse_header _ (by decide) (by decide)]
  rw [parse_blank _ "" rfl]
  rw [List.foldl_append]
  obtain ⟨cur', hcur⟩ := fold_sections R [] "DO NOT commit this file to Git!"
    hwf.2 (by simp) hwf.1
  rw [hcur, List.foldl_cons, parse_blank _ "" rfl]
  simp

/-! ### Reading back a freshly written vault -/

theorem strTrim_encrypt (key nonce pt : String)
    (hn : ∀ c ∈ nonce.data, isHexDigitCh c = true) :
    strTrim (encryptText key nonce pt) = encryptText key nonce pt := by
  unfold strTrim
  rw [trimChars_eq_self_of_all _ ?_, mk_data]
  intro c hc
  rw [show (encryptText key nonce pt).data
      = nonce.data ++ ':' :: (hexEncodeL (key.data ++ pt.data)
        ++ ':' :: hexEncodeL pt.data) from rfl] at hc
  rcases List.mem_append.mp hc with hc | hc
  · exact wsChar_false_of_isHex c (hn c hc)
  · rcases List.mem_cons.mp hc with rfl | hc
    · decide
    · rcases List.mem_append.mp hc with hc | hc
      · exact wsChar_false_of_isHex c (mem_hexEncodeL_isHex _ c hc)
      · rcases List.mem_cons.mp hc with rfl | hc
        · decide
        · exact wsChar_false_of_isHex c (mem_hexEncodeL_isHex _ c hc)

theorem read_write (key nonce nonce' : String) (st : ProjState) (entries : Creds)
    (hn : ∀ c ∈ nonce.data, isHexDigitCh c = true) :
    readCredentials key nonce' (writeCredentials key nonce st entries)
      = Except.ok (some (parseCredentialsText (serializeCredentials entries)),
          writeCredentials key nonce st entries) := by
  simp only [readCredentials,
    show (writeCredentials key nonce st entries).encFile
      = some (encryptText key nonce (serializeCredentials entries)) from rfl,
    strTrim_encrypt key nonce _ hn, decrypt_encrypt key nonce _ hn]

/-! ### String lengths -/

theorem str_length_data (s : String) : s.length = s.data.length := rfl

theorem str_length_append (s t : String) : (s ++ t).length = s.length + t.length := by
  rw [str_length_data, str_length_data, str_length_data, String.data_append,
    List.length_append]

/-! ### Import merge lemmas (C9) -/

theorem importEntries_mem_acc (C : List NoteEntryRec) (acc : List NoteEntryRec)
    (e : NoteEntryRec) (h : e ∈ acc) : e ∈ importEntries acc C := by
  induction C generalizing acc with
  | nil => exact h
  | cons c C ih =>
    unfold importEntries
    rw [List.foldl_cons]
    apply ih
    split
    · exact h
    · exact List.mem_append_left _ h

theorem importEntries_mem_incoming (C : List NoteEntryRec) (acc : List NoteEntryRec)
    (e : NoteEntryRec) (he : e ∈ C) : e ∈ importEntries acc C := by
  induction C generalizing acc with
  | nil => simp at he
  | cons c C ih =>
    unfold importEntries
    rw [List.foldl_cons]
    rcases List.mem_cons.mp he with rfl | he
    · apply importEntries_mem_acc
      split
      · assumption
      · exact List.mem_append_right _ (by simp)
    · exact ih _ he

theorem importEntries_eq_of_subset (C : List NoteEntryRec) (acc : List NoteEntryRec)
    (h : ∀ e ∈ C, e ∈ acc) : importEntries acc C = acc := by
  induction C with
  | nil => rfl
  | cons c C ih =>
    unfold importEntries
    rw [List.foldl_cons, if_pos (h c (by simp))]
    exact ih (fun e he => h e (by simp [he]))

theorem importEntries_extends (C : List NoteEntryRec) (acc : List NoteEntryRec) :
    ∃ extra, importEntries acc C = acc ++ extra := by
  induction C generalizing acc with
  | nil => exact ⟨[], by simp [importEntries]⟩
  | cons c C ih =>
    unfold importEntries
    rw [List.foldl_cons]
    split
    · exact ih acc
    · obtain ⟨extra, hx⟩ := ih (acc ++ [c])
      refine ⟨[c] ++ extra, ?_⟩
      unfold importEntries at hx
      rw [hx, List.append_assoc]

theorem importEntries_mem_iff (C : List NoteEntryRec) (acc : List NoteEntryRec)
    (e : NoteEntryRec) : e ∈ importEntries acc C ↔ e ∈ acc ∨ e ∈ C := by
  constructor
  · intro h
    induction C generalizing acc with
    | nil => exact Or.inl h
    | cons c C ih =>
      unfold importEntries at h
      rw [List.foldl_cons] at h
      rcases ih _ h with hacc | hC
      · by_cases hc : c ∈ acc
        · rw [if_pos hc] at hacc
          exact Or.inl hacc
        · rw [if_neg hc] at hacc
          rcases List.mem_append.mp hacc with hacc | hacc
          · exact Or.inl hacc
          · simp only [List.mem_singleton] at hacc
            exact Or.inr (by simp [hacc])
      · exact Or.inr (List.mem_cons_of_mem _ hC)
  · rintro (h | h)
    · exact importEntries_mem_acc C acc e h
    · exact importEntries_mem_incoming C acc e h

/-- C9: the spec-modelled v5 import merge is additive (existing entries form a
prefix of the result, never deleted or overwritten), idempotent (importing the
same entry list twice changes nothing the second time), and an incoming entry
ends up in the journal exactly when it was already there or arrived with the
container — an entry identical to an existing one is skipped rather than
duplicated. -/
theorem c9_import_additive_idempotent (J C : List NoteEntryRec) :
    importEntries (importEntries J C) C = importEntries J C ∧
    (∃ extra, importEntries J C = J ++ extra) ∧
    (∀ e, e ∈ importEntries J C ↔ e ∈ J ∨ e ∈ C) := by
  refine ⟨?_, importEntries_extends C J, fun e => importEntries_mem_iff C J e⟩
  exact importEntries_eq_of_subset C _
    (fun e he => importEntries_mem_incoming C J e he)

/-- C10: `validateSessionId` accepts exactly the non-empty strings made of
hexadecimal digits and dashes, and any accepted id resolves to a direct child
of the brain directory (no separators, no `.`/`..`), so it can never reference
a file outside it.  Both handlers taking an explicit session id
(`recall_session`, `save_note`) call `validateSessionId` before any
filesystem access. -/
theorem c10_session_id_validation (id base : String) :
    (validateSessionId id = Except.ok () ↔
      (id ≠ "" ∧ ∀ c ∈ id.data, isHexDashCh c = true)) ∧
    (validateSessionId id = Except.ok () → isDirectChild base (joinPath base id)) := by
  have hiff : validateSessionId id = Except.ok () ↔
      (id ≠ "" ∧ ∀ c ∈ id.data, isHexDashCh c = true) := by
    unfold validateSessionId
    split_ifs with h1 h2
    · simp [h1]
    · constructor
      · intro _
        exact ⟨h1, List.all_eq_true.mp h2⟩
      · intro _
        rfl
    · simp only [List.all_eq_true, not_forall] at h2
      simp only [h1, ne_eq, not_false_eq_true, true_and]
      constructor
      · intro h
        exact absurd h (by simp)
      · intro hall
        obtain ⟨c, hc, hfalse⟩ := h2
        exact absurd (hall c hc) hfalse
  refine ⟨hiff, fun h => ?_⟩
  obtain ⟨hne, hall⟩ := hiff.mp h
  refine ⟨id, rfl, hne, ?_, ?_, ?_, ?_⟩
  · intro hm
    exact absurd (hall '/' hm) (by decide)
  · intro hm
    exact absurd (hall '\\' hm) (by decide)
  · intro he
    subst he
    exact absurd (hall '.' (by decide)) (by decide)
  · intro he
    subst he
    exact absurd (hall '.' (by decide)) (by decide)

theorem c10_witness :
    validateSessionId "a1-b2" = Except.ok () ∧
      isDirectChild "/root/.gemini/antigravity/brain"
        (joinPath "/root/.gemini/antigravity/brain" "a1-b2") :=
  ⟨rfl,
    (c10_session_id_validation "a1-b2" "/root/.gemini/antigravity/brain").2 rfl⟩

/-- C5: any session returned by the listing has at least one of
task/walkthrough/plan with non-whitespace content; a session whose three
qualifying files are all blank is never listed (whatever its notes journal
holds); and the returned sequence is sorted by modification time descending. -/
theorem c5_listing_filter_sort (brain : Option (List SessionDir)) :
    (∀ d ∈ getBrainFoldersSorted brain, hasArtifacts d = true) ∧
    (∀ d : SessionDir, strTrim d.task = "" → strTrim d.walkthrough = "" →
      strTrim d.plan = "" → d ∉ getBrainFoldersSorted brain) ∧
    (getBrainFoldersSorted brain).Pairwise (fun a b => b.mtime ≤ a.mtime) := by
  have hmem : ∀ d ∈ getBrainFoldersSorted brain, hasArtifacts d = true := by
    intro d hd
    cases brain with
    | none => simp [getBrainFoldersSorted] at hd
    | some entries =>
      unfold getBrainFoldersSorted at hd
      rw [List.mem_mergeSort, List.mem_filter] at hd
      exact hd.2
  refine ⟨hmem, ?_, ?_⟩
  · intro d h1 h2 h3 hd
    have := hmem d hd
    rw [show hasArtifacts d = false from by
      simp [hasArtifacts, h1, h2, h3, String.isEmpty_iff]] at this
    cases this
  · cases brain with
    | none => simp [getBrainFoldersSorted]
    | some entries =>
      unfold getBrainFoldersSorted
      have hp := @List.sorted_mergeSort SessionDir
        (fun a b : SessionDir => decide (b.mtime ≤ a.mtime))
        (fun a b c hab hbc => by
          simp only [decide_eq_true_eq] at hab hbc ⊢
          exact le_trans hbc hab)
        (fun a b => by
          simp only [Bool.or_eq_true, decide_eq_true_eq]
          exact le_total b.mtime a.mtime)
        ((entries.filter (fun d => d.isDir && d.name != "tempmediaStorage")).filter
          hasArtifacts)
      exact hp.imp (fun h => by simpa using h)

theorem c5_witness :
    ({ name := "s1", isDir := true, mtime := 0, task := "", walkthrough := "",
       plan := "", notes := "# Session Notes\n\nonly notes here" } : SessionDir)
      ∉ getBrainFoldersSorted (some
        [{ name := "s1", isDir := true, mtime := 0, task := "", walkthrough := "",
           plan := "", notes := "# Session Notes\n\nonly notes here" }]) :=
  (c5_listing_filter_sort _).2.1 _ (by decide) (by decide) (by decide)

/-- The amended C6 title rule, written from the corrected spec sentence:
prefer the task file; if it is blank, fall back to the plan file.  In either
file the title is the first line whose trimmed form begins with `#`, with the
marker characters stripped only when they sit at the very start of the raw
line, then trimmed.  Only in the task case does a heading-less text fall back
to the first non-blank line (trimmed, truncated to 80 characters); a
heading-less plan yields the literal "Untitled session". -/
def titleSpecAmended (task plan : String) : String :=
  let headingTitle := fun (text : String) =>
    ((strLines text).find? (fun l => strStartsWith (strTrim l) "#")).map
      (fun h => strTrim (⟨stripHeadingMark h.data⟩ : String))
  if strTrim task = "" then (headingTitle plan).getD "Untitled session"
  else
    match headingTitle task with
    | some t => t
    | none =>
      (((strLines task).find? (fun l => !(strTrim l).isEmpty)).map
        (fun l => (⟨(trimChars l.data).take 80⟩ : String))).getD "Untitled session"

/-- C6 (amended): `extractTitle` implements exactly the amended title rule. -/
theorem c6_amended_title (task plan : String) :
    extractTitle task plan = titleSpecAmended task plan := by
  unfold extractTitle titleSpecAmended
  split_ifs with h
  · cases hfind : (strLines plan).find? (fun l => strStartsWith (strTrim l) "#") <;>
      simp [hfind]
  · cases hfind : (strLines task).find? (fun l => strStartsWith (strTrim l) "#") with
    | some t => simp [hfind]
    | none =>
      cases hfind2 : (strLines task).find? (fun l => !(strTrim l).isEmpty) <;>
        simp [hfind, hfind2]

/-- C6 counterexample: with a blank task file and a plan file whose text has
no heading line, the claim's "first non-blank line" fallback would give
"hello world", but the code returns "Untitled session" — the fallback does
not apply when the plan file was the chosen text. -/
theorem c6_counterexample :
    extractTitle "" "hello world" = "Untitled session" ∧
      extractTitle "" "hello world" ≠ "hello world" :=
  ⟨by decide, by decide⟩

/-- C4: reading a project whose encrypted vault exists but fails decryption
(malformed payload or authentication mismatch) yields the distinct `❌` error
text naming corruption or creation on another machine, while a project with
no credential file at all yields the informational `📭` not-found text; the
two texts can never coincide. -/
theorem c4_decrypt_error_vs_notfound (key nonce pp : String) (st : ProjState) :
    (∀ payload e, st.encFile = some payload →
      decryptText key (strTrim payload) = Except.error e →
      (getCredentialsHandler key nonce pp st).1
        = "❌ get_credentials failed: " ++ ("Failed to decrypt credentials: " ++ e ++
            ". File may be corrupted or created on a different machine.")) ∧
    (st.encFile = none → st.plainFile = none →
      (getCredentialsHandler key nonce pp st).1 = "📭 No credentials found in " ++ pp) ∧
    (∀ e' : String,
      "❌ get_credentials failed: " ++ e' ≠ "📭 No credentials found in " ++ pp) := by
  refine ⟨?_, ?_, ?_⟩
  · intro payload e h1 h2
    simp only [getCredentialsHandler, readCredentials, h1, h2]
  · intro h1 h2
    simp only [getCredentialsHandler, readCredentials, h1, h2]
    rfl
  · intro e' h
    have hl : (("❌ get_credentials failed: " ++ e').data).head? = some '❌' := by
      rw [String.data_append,
        show ("❌ get_credentials failed: " : String).data
          = '❌' :: " get_credentials failed: ".data from by decide]
      rfl
    have hr : (("📭 No credentials found in " ++ pp).data).head? = some '📭' := by
      rw [String.data_append,
        show ("📭 No credentials found in " : String).data
          = '📭' :: " No credentials found in ".data from by decide]
      rfl
    rw [h, hr] at hl
    exact absurd hl (by decide)

theorem c4_witness :
    (getCredentialsHandler "k" "ab" "/proj" ⟨some "zz", none, none⟩).1
      = "❌ get_credentials failed: " ++ ("Failed to decrypt credentials: " ++
          "Invalid encrypted format" ++
          ". File may be corrupted or created on a different machine.") ∧
    (getCredentialsHandler "k" "ab" "/proj" ⟨none, none, none⟩).1
      = "📭 No credentials found in " ++ "/proj" :=
  ⟨(c4_decrypt_error_vs_notfound "k" "ab" "/proj" ⟨some "zz", none, none⟩).1
      "zz" "Invalid encrypted format" rfl rfl,
    (c4_decrypt_error_vs_notfound "k" "ab" "/proj" ⟨none, none, none⟩).2.1 rfl rfl⟩

/-- C2 (amended): for a well-formed record — non-empty sections with distinct
names; names, keys and values free of newlines and edge whitespace; keys
non-empty, `=`-free and not starting with `#` — `save_credentials` followed by
`get_credentials` on the same machine key returns the record unchanged, the
encrypted vault file exists afterwards, and no plaintext vault file exists. -/
theorem c2_amended_roundtrip (key nonce nonce' : String) (st : ProjState) (R : Creds)
    (hR : WfCreds R) (hn : ∀ c ∈ nonce.data, isHexDigitCh c = true)
    (hplain : st.plainFile = none) :
    readCredentials key nonce' (writeCredentials key nonce st R)
      = Except.ok (some R, writeCredentials key nonce st R) ∧
    (writeCredentials key nonce st R).encFile.isSome = true ∧
    (writeCredentials key nonce st R).plainFile = none := by
  refine ⟨?_, rfl, hplain⟩
  rw [read_write key nonce nonce' st R hn, parse_serialize R hR]

theorem c2_witness :
    readCredentials "machinekey" "0a1b" (writeCredentials "machinekey" "ffee"
        ⟨none, none, none⟩ [("Hosting", [("LOGIN", "bob")])])
      = Except.ok (some [("Hosting", [("LOGIN", "bob")])],
          writeCredentials "machinekey" "ffee" ⟨none, none, none⟩
            [("Hosting", [("LOGIN", "bob")])]) ∧
    (writeCredentials "machinekey" "ffee" ⟨none, none, none⟩
        [("Hosting", [("LOGIN", "bob")])]).encFile.isSome = true ∧
    (writeCredentials "machinekey" "ffee" ⟨none, none, none⟩
        [("Hosting", [("LOGIN", "bob")])]).plainFile = none :=
  c2_amended_roundtrip "machinekey" "ffee" "0a1b" ⟨none, none, none⟩
    [("Hosting", [("LOGIN", "bob")])] (by decide) (by decide) rfl

/-- C2 counterexample: the claim quantifies over every record, but a record
with an empty section is not returned unchanged — `save_credentials` with
`{"Hosting": {}}` followed by `get_credentials` returns the empty record,
because serialization emits only a section header which parsing drops when no
key follows it. -/
theorem c2_counterexample :
    readCredentials "machinekey" "0a1b" (writeCredentials "machinekey" "ffee"
        ⟨none, none, none⟩ [("Hosting", [])])
      = Except.ok (some [], writeCredentials "machinekey" "ffee"
          ⟨none, none, none⟩ [("Hosting", [])]) ∧
    ([] : Creds) ≠ [("Hosting", [])] := by
  constructor
  · rw [read_write "machinekey" "ffee" "0a1b" ⟨none, none, none⟩
      [("Hosting", [])] (by decide)]
    rw [show parseCredentialsText (serializeCredentials [("Hosting", [])])
      = [] from by decide]
  · decide

/-- C3: reading a project that has a non-empty legacy plaintext vault and no
encrypted vault parses the plaintext, migrates it (afterwards the plaintext
file is gone and the encrypted file exists), and a second read decrypts the
migrated file back to the very same record. -/
theorem c3_migration_idempotent (key nonce nonce' : String) (st : ProjState)
    (c : String) (hplain : st.plainFile = some c) (henc : st.encFile = none)
    (hne : ¬(strTrim c = "")) (hn : ∀ ch ∈ nonce.data, isHexDigitCh ch = true) :
    ∃ (r : Creds) (st' : ProjState),
      readCredentials key nonce st = Except.ok (some r, st') ∧
      readCredentials key nonce' st' = Except.ok (some r, st') ∧
      st'.plainFile = none ∧ st'.encFile.isSome = true := by
  refine ⟨parseCredentialsText c,
    { encFile := some (encryptText key nonce c), plainFile := none,
      gitignore := ensureGitignore st.gitignore ".credentials.enc" }, ?_, ?_, rfl, rfl⟩
  · simp only [readCredentials, henc, hplain, if_neg hne]
  · simp only [readCredentials]
    rw [strTrim_encrypt key nonce c hn, decrypt_encrypt key nonce c hn]

theorem c3_witness :
    ∃ (r : Creds) (st' : ProjState),
      readCredentials "machinekey" "0a1b" ⟨none, some "LOGIN=bob", none⟩
        = Except.ok (some r, st') ∧
      readCredentials "machinekey" "ffee" st' = Except.ok (some r, st') ∧
      st'.plainFile = none ∧ st'.encFile.isSome = true :=
  c3_migration_idempotent "machinekey" "0a1b" "ffee" ⟨none, some "LOGIN=bob", none⟩
    "LOGIN=bob" rfl rfl (by decide) (by decide)

/-- C8 counterexample: a `.gitignore` that initially mentions neither
credential filename ends up with a `.credentials.enc` line but no
`.credentials` line after `save_credentials` — the second `ensureGitignore`
call finds `.credentials` as a substring of the `.credentials.enc` line and
skips the append, so the legacy filename is never listed as an entry. -/
theorem c8_counterexample :
    (writeCredentials "machinekey" "ffee" ⟨none, none, some "node_modules\n"⟩
        [("Hosting", [("LOGIN", "bob")])]).gitignore
      = some ("node_modules\n" ++ "\n# Credentials (auto-added)\n"
          ++ ".credentials.enc" ++ "\n") ∧
    ".credentials" ∉ strLines ("node_modules\n" ++ "\n# Credentials (auto-added)\n"
        ++ ".credentials.enc" ++ "\n") ∧
    ".credentials.enc" ∈ strLines ("node_modules\n" ++ "\n# Credentials (auto-added)\n"
        ++ ".credentials.enc" ++ "\n") := by
  refine ⟨?_, by decide, by decide⟩
  rw [show (writeCredentials "machinekey" "ffee" ⟨none, none, some "node_modules\n"⟩
      [("Hosting", [("LOGIN", "bob")])]).gitignore
      = ensureGitignore (ensureGitignore (some "node_modules\n") ".credentials.enc")
          ".credentials" from rfl]
  decide

/-- C8 (amended): when no ignore file exists the write never creates one; when
one exists and mentions neither credential filename, the write appends exactly
one block containing the encrypted filename `.credentials.enc`, and the second
`ensureGitignore` call performs no append because the literal text
`.credentials` already occurs inside the appended `.credentials.enc` line. -/
theorem c8_amended_gitignore (key nonce : String) (st : ProjState) (entries : Creds) :
    (st.gitignore = none → (writeCredentials key nonce st entries).gitignore = none) ∧
    (∀ c : String, st.gitignore = some c →
      strIncludes c ".credentials" = false →
      (writeCredentials key nonce st entries).gitignore
        = some (c ++ "\n# Credentials (auto-added)\n" ++ ".credentials.enc" ++ "\n")) := by
  constructor
  · intro h
    simp [writeCredentials, ensureGitignore, h]
  · intro c hc hinc
    have hinc_enc : strIncludes c ".credentials.enc" = false := by
      by_contra hx
      have hx' : strIncludes c ".credentials.enc" = true := by
        revert hx
        cases strIncludes c ".credentials.enc" <;> simp
      have hsub : strIncludes c ".credentials" = true := by
        unfold strIncludes at hx' ⊢
        rw [show (".credentials.enc" : String).data
          = (".credentials" : String).data ++ (".enc" : String).data from by decide] at hx'
        exact occursIn_needle_of_append _ _ _ hx'
      rw [hinc] at hsub
      cases hsub
    have h2 : strIncludes (c ++ "\n# Credentials (auto-added)\n"
        ++ ".credentials.enc" ++ "\n") ".credentials" = true := by
      unfold strIncludes
      simp only [String.data_append, List.append_assoc]
      apply occursIn_append_right
      decide
    simp only [writeCredentials, ensureGitignore, hc, hinc_enc,
      Bool.false_eq_true, if_false, h2, if_true]

theorem c8_witness :
    (writeCredentials "machinekey" "ffee" ⟨none, none, none⟩
        [("Hosting", [("LOGIN", "bob")])]).gitignore = none ∧
    (writeCredentials "machinekey" "ffee" ⟨none, none, some "node_modules"⟩
        [("Hosting", [("LOGIN", "bob")])]).gitignore
      = some ("node_modules" ++ "\n# Credentials (auto-added)\n"
          ++ ".credentials.enc" ++ "\n") :=
  ⟨(c8_amended_gitignore "machinekey" "ffee" ⟨none, none, none⟩
      [("Hosting", [("LOGIN", "bob")])]).1 rfl,
    (c8_amended_gitignore "machinekey" "ffee" ⟨none, none, some "node_modules"⟩
      [("Hosting", [("LOGIN", "bob")])]).2 "node_modules" rfl (by decide)⟩

/-- C7 (amended): a text result passed through `truncateResponse` satisfies
the claimed dichotomy — unchanged when within the 50,000-character ceiling,
otherwise the ceiling-length prefix with the explicit truncation marker
appended — but the `get_credentials` handler returns its rendered text to the
dispatcher without applying `truncateResponse`: whenever `readCredentials`
yields a record, the handler's result is exactly `credsText` of that record,
however long that is. -/
theorem c7_amended_truncation (text key nonce pp : String) (st : ProjState) :
    ((text.length ≤ MAX_RESPONSE_CHARS ∧ truncateResponse text = text) ∨
      (MAX_RESPONSE_CHARS < text.length ∧ truncateResponse text
        = (⟨text.data.take MAX_RESPONSE_CHARS⟩ : String)
            ++ truncationMarker text.length)) ∧
    (∀ creds st', readCredentials key nonce st = Except.ok (some creds, st') →
      (getCredentialsHandler key nonce pp st).1 = credsText creds) := by
  constructor
  · by_cases h : text.length ≤ MAX_RESPONSE_CHARS
    · exact Or.inl ⟨h, by unfold truncateResponse; rw [if_pos h]⟩
    · refine Or.inr ⟨by omega, ?_⟩
      unfold truncateResponse
      rw [if_neg h]
  · intro creds st' h
    unfold getCredentialsHandler
    rw [h]

theorem c7_witness :
    (getCredentialsHandler "k" "cd" "/proj"
        ⟨some (encryptText "k" "ab" "LOGIN=bob"), none, none⟩).1
      = credsText [("general", [("LOGIN", "bob")])] :=
  (c7_amended_truncation "" "k" "cd" "/proj"
      ⟨some (encryptText "k" "ab" "LOGIN=bob"), none, none⟩).2
    [("general", [("LOGIN", "bob")])]
    ⟨some (encryptText "k" "ab" "LOGIN=bob"), none, none⟩
    (by
      simp only [readCredentials,
        strTrim_encrypt "k" "ab" "LOGIN=bob" (by decide),
        decrypt_encrypt "k" "ab" "LOGIN=bob" (by decide)]
      rw [show parseCredentialsText "LOGIN=bob"
        = [("general", [("LOGIN", "bob")])] from by decide])

/-- A 60,000-character credential value used to exhibit an untruncated
oversized response. -/
def c7BigValue : String := ⟨List.replicate 60000 'a'⟩

theorem trimStable_c7BigValue : TrimStable c7BigValue := by
  constructor
  · show List.dropWhile wsChar (List.replicate 60000 'a') = List.replicate 60000 'a'
    rw [show (60000 : Nat) = 59999 + 1 from rfl, List.replicate_succ,
      List.dropWhile_cons, if_neg (by decide)]
  · show (List.replicate 60000 'a').reverse.dropWhile wsChar
      = (List.replicate 60000 'a').reverse
    rw [List.reverse_replicate, show (60000 : Nat) = 59999 + 1 from rfl,
      List.replicate_succ, List.dropWhile_cons, if_neg (by decide)]

theorem c7_chars (c : Char) (hc : c ∈ ("k" ++ "=" ++ c7BigValue).data) :
    c = 'k' ∨ c = '=' ∨ c = 'a' := by
  rw [show ("k" ++ "=" ++ c7BigValue).data = 'k' :: '=' :: c7BigValue.data from rfl] at hc
  rcases List.mem_cons.mp hc with rfl | hc
  · exact Or.inl rfl
  · rcases List.mem_cons.mp hc with rfl | hc
    · exact Or.inr (Or.inl rfl)
    · rw [show c7BigValue.data = List.replicate 60000 'a' from rfl] at hc
      exact Or.inr (Or.inr (List.eq_of_mem_replicate hc))

theorem c7_wfkv : WfKV ("k", c7BigValue) := by
  refine ⟨by decide, by decide, trimStable_c7BigValue, by decide, ?_, by decide, by decide⟩
  intro hmem
  rcases c7_chars '\n' (by
    rw [show ("k" ++ "=" ++ c7BigValue).data = 'k' :: '=' :: c7BigValue.data from rfl]
    exact List.mem_cons_of_mem _ (List.mem_cons_of_mem _ hmem)) with h | h | h <;> cases h

theorem parseCredentialsText_eq (content : String) : parseCredentialsText content
    = ((strLines content).foldl parseLine ([], "general")).1 := rfl

theorem c7_parse : parseCredentialsText ("k" ++ "=" ++ c7BigValue)
    = [("general", [("k", c7BigValue)])] := by
  have hlines : strLines ("k" ++ "=" ++ c7BigValue) = ["k" ++ "=" ++ c7BigValue] := by
    unfold strLines
    rw [splitSepBy_no_sep _ _ ?_]
    · show [(⟨("k" ++ "=" ++ c7BigValue).data⟩ : String)] = ["k" ++ "=" ++ c7BigValue]
      rw [mk_data]
    · intro x hx
      rcases c7_chars x hx with rfl | rfl | rfl <;> decide
  rw [parseCredentialsText_eq, hlines, List.foldl_cons,
    parse_kv "k" c7BigValue c7_wfkv [] "general"]
  rfl

theorem c7_trim_line : strTrim ("k" ++ "=" ++ c7BigValue) = "k" ++ "=" ++ c7BigValue := by
  unfold strTrim
  rw [trimChars_eq_self_of_all _ ?_, mk_data]
  intro c hc
  rcases c7_chars c hc with rfl | rfl | rfl <;> decide

theorem c7_handler_text :
    (getCredentialsHandler "machinekey" "ffee" "/proj"
        ⟨none, some ("k" ++ "=" ++ c7BigValue), none⟩).1
      = credsText [("general", [("k", c7BigValue)])] := by
  have hne : ¬(strTrim ("k" ++ "=" ++ c7BigValue) = "") := by
    rw [c7_trim_line]
    refine str_ne_empty_of_data _ ?_
    rw [show ("k" ++ "=" ++ c7BigValue).data = 'k' :: '=' :: c7BigValue.data from rfl]
    simp
  unfold getCredentialsHandler
  simp only [readCredentials, if_neg hne]
  rw [c7_parse]

theorem c7_text_length :
    (credsText [("general", [("k", c7BigValue)])]).length = 60051 := by
  rw [show credsText [("general", [("k", c7BigValue)])]
      = "# Credentials (🔐 encrypted)\n\n" ++ "## " ++ "general" ++ "\n" ++ "- **"
        ++ "k" ++ "**: " ++ c7BigValue ++ "\n" ++ "\n" from rfl]
  simp only [str_length_append]
  rw [show c7BigValue.length = 60000 from by
    rw [str_length_data, show c7BigValue.data = List.replicate 60000 'a' from rfl,
      List.length_replicate]]
  decide

/-- C7 counterexample: the `get_credentials` handler returns a 60,051-character
text to the dispatcher unmodified — longer than the 50,000-character ceiling
and not equal to its truncated form, refuting the claim for this operation. -/
theorem c7_counterexample :
    MAX_RESPONSE_CHARS <
      ((getCredentialsHandler "machinekey" "ffee" "/proj"
        ⟨none, some ("k" ++ "=" ++ c7BigValue), none⟩).1).length ∧
    (getCredentialsHandler "machinekey" "ffee" "/proj"
        ⟨none, some ("k" ++ "=" ++ c7BigValue), none⟩).1
      ≠ truncateResponse ((getCredentialsHandler "machinekey" "ffee" "/proj"
          ⟨none, some ("k" ++ "=" ++ c7BigValue), none⟩).1) := by
  rw [c7_handler_text]
  constructor
  · rw [c7_text_length]
    decide
  · intro heq
    have hlen2 := congrArg String.length heq
    have h_not_le : ¬((credsText [("general", [("k", c7BigValue)])]).length
        ≤ MAX_RESPONSE_CHARS) := by
      rw [c7_text_length]
      decide
    rw [show truncateResponse (credsText [("general", [("k", c7BigValue)])])
        = (⟨(credsText [("general", [("k", c7BigValue)])]).data.take
            MAX_RESPONSE_CHARS⟩ : String)
          ++ truncationMarker ((credsText [("general", [("k", c7BigValue)])]).length)
        from by unfold truncateResponse; rw [if_neg h_not_le]] at hlen2
    rw [str_length_append] at hlen2
    have htake : ((⟨(credsText [("general", [("k", c7BigValue)])]).data.take
        MAX_RESPONSE_CHARS⟩ : String)).length = MAX_RESPONSE_CHARS := by
      rw [str_length_data]
      show ((credsText [("general", [("k", c7BigValue)])]).data.take
        MAX_RESPONSE_CHARS).length = MAX_RESPONSE_CHARS
      rw [List.length_take]
      have hd : (credsText [("general", [("k", c7BigValue)])]).data.length = 60051 := by
        rw [← str_length_data, c7_text_length]
      rw [hd]
      decide
    rw [htake, c7_text_length,
      show (truncationMarker 60051).length = 59 from by decide] at hlen2
    exact absurd hlen2 (by decide)

/-- C1 (amended): a search hit is returned exactly when it is a non-empty
trimmed fragment of one of the most-recent `lastN` listed sessions' journals
(split on `---` delimiter lines), the fragment does not begin with the
`# Session Notes` document header — which swallows the first entry ever
appended to a fresh journal — and it satisfies the conjunctive query/tag
condition: query absent (or empty) or a case-insensitive substring of the
entry, and tag absent (or empty) or `#tag` occurring literally in the entry.
Hits carry the session's id, derived title and mtime. -/
theorem c1_amended_search (brain : Option (List SessionDir)) (query tag : Option String)
    (lastN : Nat) (hit : SearchHit) :
    hit ∈ searchNotes brain query tag lastN ↔
      ∃ folder ∈ (getBrainFoldersSorted brain).take lastN,
        ¬(strTrim folder.notes = "") ∧
        hit.entry ∈ noteEntries folder.notes ∧
        strStartsWith hit.entry "# Session Notes" = false ∧
        matchesQuery query hit.entry = true ∧
        matchesTag tag hit.entry = true ∧
        hit.sessionId = folder.name ∧
        hit.title = extractTitle folder.task folder.plan ∧
        hit.mtime = folder.mtime := by
  unfold searchNotes
  rw [List.mem_flatMap]
  constructor
  · rintro ⟨folder, hf, hmem⟩
    by_cases hnz : strTrim folder.notes = ""
    · rw [if_pos hnz] at hmem
      simp at hmem
    · rw [if_neg hnz] at hmem
      rw [List.mem_filterMap] at hmem
      obtain ⟨entry, hent, hopt⟩ := hmem
      by_cases hhdr : strStartsWith entry "# Session Notes" = true
      · rw [if_pos hhdr] at hopt
        cases hopt
      · rw [if_neg hhdr] at hopt
        by_cases hmq : (matchesQuery query entry && matchesTag tag entry) = true
        · rw [if_pos hmq] at hopt
          obtain ⟨rfl⟩ := hopt
          rw [Bool.and_eq_true] at hmq
          exact ⟨folder, hf, hnz, hent,
            (by revert hhdr; cases strStartsWith entry "# Session Notes" <;> simp),
            hmq.1, hmq.2, rfl, rfl, rfl⟩
        · rw [if_neg hmq] at hopt
          cases hopt
  · rintro ⟨folder, hf, hnz, hent, hhdr, hmq, hmt, hsid, htitle, hmtime⟩
    refine ⟨folder, hf, ?_⟩
    rw [if_neg hnz, List.mem_filterMap]
    refine ⟨hit.entry, hent, ?_⟩
    rw [if_neg (by rw [hhdr]; simp), if_pos (by rw [hmq, hmt]; rfl)]
    obtain ⟨sid, title, mtime, entry⟩ := hit
    simp only at hsid htitle hmtime
    rw [hsid, htitle, hmtime]

/-- The session directory of the C1 counterexample: its journal was created
by a single `appendNote` (the first entry ever appended). -/
def c1Folder : SessionDir :=
  { name := "s1", isDir := true, mtime := 0, task := "t", walkthrough := "",
    plan := "", notes := appendNote none "2026-02-19 12:00" "hello" none }

/-- C1 counterexample: one entry was appended to a fresh journal, yet
`searchNotes` with no query and no tag returns nothing — the first entry sits
in the same `---`-split fragment as the `# Session Notes` document header and
is skipped, refuting "returns every appended entry … including the first
entry ever appended". -/
theorem c1_counterexample :
    searchNotes (some [c1Folder]) none none 5 = [] := by
  have hsort : getBrainFoldersSorted (some [c1Folder]) = [c1Folder] := by
    show (([c1Folder].filter (fun d => d.isDir && d.name != "tempmediaStorage")).filter
        hasArtifacts).mergeSort (fun a b => decide (b.mtime ≤ a.mtime)) = [c1Folder]
    rw [show [c1Folder].filter (fun d => d.isDir && d.name != "tempmediaStorage")
        = [c1Folder] from by decide]
    rw [show [c1Folder].filter hasArtifacts = [c1Folder] from by decide]
    exact List.mergeSort_singleton c1Folder
  unfold searchNotes
  rw [hsort]
  decide

end AGC
